import Mathlib

/-!
A Lean model of the `tiny-sparse-merkle-tree` crate (`src/lib.rs`): a
fixed-shape, array-backed sparse Merkle tree with compact multi-leaf
inclusion proofs.

The embedding mirrors the Rust source:

* `Hasher` is the `Hasher` trait (leaf hashing plus pairwise `merge`);
  the `Default` bound on digests is passed as an explicit `dflt` value and
  `PartialEq` as a `DecidableEq` instance.
* `SparseMerkleTree.new`, `root`, `proof_of`, `verify` and `Proof.sort`
  follow the source line by line; the `(1..half).rev().for_each` loops are
  the explicit countdown recursion `downLoop`, and `verify`'s growing-queue
  `while` loop is the well-founded recursion `verifyLoop` (the proof-list
  cursor is represented by the not-yet-consumed suffix of the proof list).
* Machine integers (`u32`) are modelled as `Nat`; the only subtraction the
  source performs (`half_leaves_count - non_empty_leaves_count`, `i - 1`
  for odd `i`) never underflows, so `Nat` subtraction agrees with `u32`.
* `Vec` indexing that the source performs without an explicit bounds check
  is modelled totally with `getD`/`setD`; the `…Checked` variants below
  model every such access as a fallible `Option` read/write, and theorems
  relate the two (showing no out-of-bounds access happens).
* `…Fuel` variants replace each loop with an explicitly fuelled recursion
  (`none` = fuel exhausted); theorems show a fuel linear in the input size
  is always sufficient, which is the termination argument of the source.
-/

namespace Tsmt

/-- The `Hasher` trait: a leaf hash and a pairwise merge of digests. -/
structure Hasher (L H : Type) where
  hash : L → H
  merge : H → H → H

/-- Doubling loop behind `next_power_of_two`: starting from `p`, keep
doubling until the accumulator reaches `n`; the first argument is fuel. -/
def npotGo (n : Nat) : Nat → Nat → Nat
  | 0, p => p
  | fuel+1, p => if n ≤ p then p else npotGo n fuel (2 * p)

/-- Rust `u32::next_power_of_two`: the smallest power of two `≥ n`
(in particular `0` and `1` both map to `1`).  Starting from `1`, `n`
doubling steps always suffice, so `n` is used as fuel. -/
def next_power_of_two (n : Nat) : Nat := npotGo n n 1

/-- `non_empty_to_half_leaves_count` from the source. -/
def non_empty_to_half_leaves_count (non_empty_leaves_count : Nat) : Nat :=
  next_power_of_two non_empty_leaves_count

/-- The tree: flat node array plus the count of real (non-padding) leaves. -/
structure SparseMerkleTree (H : Type) where
  nodes : Array H
  non_empty_leaves_count : Nat
deriving DecidableEq

/-- `(1..=n).rev().for_each(step)` over a state: run `step n`, `step (n-1)`,
…, `step 1`.  The Rust loops `(1..half).rev()` are `downLoop step (half-1)`. -/
def downLoop {σ : Type} (step : Nat → σ → σ) : Nat → σ → σ
  | 0, s => s
  | n+1, s => downLoop step n (step (n+1) s)

variable {L H : Type}

/-- One iteration of the build pass: `nodes[i] = merge(nodes[2i], nodes[2i+1])`. -/
def buildStep (merge : H → H → H) (dflt : H) (i : Nat) (nodes : Array H) : Array H :=
  nodes.setD i (merge (nodes.getD (2 * i) dflt) (nodes.getD (2 * i + 1) dflt))

/-- `SparseMerkleTree::new`: default-fill the first `half` slots, hash the
leaves into the next `non_empty` slots, default-pad to `2 * half`, then run
the bottom-up merge pass from `half - 1` down to `1`. -/
def SparseMerkleTree.new (hs : Hasher L H) (dflt : H) (leaves : List L) :
    SparseMerkleTree H :=
  let non_empty_leaves_count := leaves.length
  let half_leaves_count := non_empty_to_half_leaves_count non_empty_leaves_count
  let nodes : Array H :=
    Array.mkArray half_leaves_count dflt
      ++ (leaves.map hs.hash).toArray
      ++ Array.mkArray (half_leaves_count - non_empty_leaves_count) dflt
  ⟨downLoop (buildStep hs.merge dflt) (half_leaves_count - 1) nodes,
    non_empty_leaves_count⟩

/-- `leaves_count()`: the padded length of the node array. -/
def SparseMerkleTree.leaves_count (t : SparseMerkleTree H) : Nat := t.nodes.size

/-- `root()`: `nodes[1]`, or the default digest for an empty node array. -/
def SparseMerkleTree.root (dflt : H) (t : SparseMerkleTree H) : H :=
  if t.leaves_count = 0 then dflt else t.nodes.getD 1 dflt

/-- The `Proof` struct. -/
structure Proof (H : Type) where
  half_leaves_count : Nat
  root : H
  leaves_with_index : List (Nat × H)
  proof : List H
deriving DecidableEq

/-- `Proof::default()` (`#[derive(Default)]`): zero count, default root,
empty lists. -/
def defaultProof (dflt : H) : Proof H := ⟨0, dflt, [], []⟩

/-- `Proof::sort`: stably sort `leaves_with_index` by index, descending
(Rust `sort_by(|(a, _), (b, _)| b.cmp(a))` is a stable sort; so is
insertion sort with the matching total preorder). -/
def Proof.sort (p : Proof H) : Proof H :=
  { p with leaves_with_index := p.leaves_with_index.insertionSort fun a b => b.1 ≤ a.1 }

/-- One iteration of the proof-generation pass at internal node `i`
(children `j = 2i`, `k = 2i+1`): push the sibling of a known child that is
itself unknown, then mark `i` known iff either child is. -/
def genStep (nodes : Array H) (dflt : H) (i : Nat) :
    Array Bool × List H → Array Bool × List H := fun s =>
  let j := 2 * i
  let k := 2 * i + 1
  let l := s.1.getD j false
  let r := s.1.getD k false
  let p1 := if l && !r then s.2 ++ [nodes.getD k dflt] else s.2
  let p2 := if !l && r then p1 ++ [nodes.getD j dflt] else p1
  (s.1.setD i (l || r), p2)

/-- `SparseMerkleTree::proof_of`: reject out-of-range indices with the
default proof; otherwise mark the requested leaf slots in a `known` array,
run the bottom-up pass collecting needed siblings, and assemble the proof. -/
def SparseMerkleTree.proof_of (dflt : H) (t : SparseMerkleTree H) (indices : List Nat) :
    Proof H :=
  let leaves_count := t.leaves_count
  let half_leaves_count := leaves_count / 2
  if indices.any fun i => t.non_empty_leaves_count ≤ i then
    defaultProof dflt
  else
    let known := indices.foldl (fun k i => k.setD (half_leaves_count + i) true)
      (Array.mkArray leaves_count false)
    let st := downLoop (genStep t.nodes dflt) (half_leaves_count - 1) (known, [])
    { half_leaves_count := half_leaves_count
      root := t.root dflt
      leaves_with_index :=
        indices.map fun i =>
          (half_leaves_count + i, t.nodes.getD (half_leaves_count + i) dflt)
      proof := st.2 }

/-- The verifier's queue loop.  `q` is the growing queue
(`nodes_with_indices`), `n` the queue cursor (`n_i`), and `r` the suffix of
the proof list not yet consumed (the source keeps the full list plus a
cursor `p_i`; `r = proof[p_i..]`, and `p_i == proof.len()` iff `r = []`). -/
def verifyLoop [DecidableEq H] (merge : H → H → H) (dflt : H) (root : H) :
    (q : List (Nat × H)) → (n : Nat) → (r : List H) → Bool := fun q n r =>
  if h : n < q.length then
    if (q.getD n (0, dflt)).1 = 1 then decide (root = (q.getD n (0, dflt)).2)
    else if (q.getD n (0, dflt)).1 % 2 = 0 then
      match r with
      | [] => false
      | x :: r' =>
        verifyLoop merge dflt root
          (q ++ [((q.getD n (0, dflt)).1 / 2, merge (q.getD n (0, dflt)).2 x)]) (n + 1) r'
    else if n + 1 ≠ q.length ∧ (q.getD (n + 1) (0, dflt)).1 = (q.getD n (0, dflt)).1 - 1 then
      verifyLoop merge dflt root
        (q ++ [((q.getD n (0, dflt)).1 / 2,
          merge (q.getD n (0, dflt)).2 (q.getD (n + 1) (0, dflt)).2)]) (n + 2) r
    else
      match r with
      | [] => false
      | x :: r' =>
        verifyLoop merge dflt root
          (q ++ [((q.getD n (0, dflt)).1 / 2, merge x (q.getD n (0, dflt)).2)]) (n + 1) r'
  else false
termination_by q n r => (r.length, q.length + 1 - n)
decreasing_by all_goals (simp [Prod.lex_iff]; try omega)

/-- `SparseMerkleTree::verify`: an empty claim set fails immediately;
otherwise replay the merges from the claimed leaves and proof list. -/
def SparseMerkleTree.verify [DecidableEq H] (merge : H → H → H) (dflt : H)
    (p : Proof H) : Bool :=
  if p.leaves_with_index.isEmpty then false
  else verifyLoop merge dflt p.root p.leaves_with_index 0 p.proof

/-- Fuelled form of `downLoop`: `none` when the fuel runs out before the
countdown does.  `downLoopFuel step n n s = some (downLoop step n s)`, so a
fuel equal to the iteration count always suffices. -/
def downLoopFuel {σ : Type} (step : Nat → σ → σ) : Nat → Nat → σ → Option σ
  | _, 0, s => some s
  | 0, _+1, _ => none
  | fuel+1, n+1, s => downLoopFuel step fuel n (step (n + 1) s)

/-- `SparseMerkleTree.new` with the merge pass fuelled. -/
def SparseMerkleTree.newFuel (hs : Hasher L H) (dflt : H) (fuel : Nat)
    (leaves : List L) : Option (SparseMerkleTree H) :=
  let non_empty_leaves_count := leaves.length
  let half_leaves_count := non_empty_to_half_leaves_count non_empty_leaves_count
  let nodes : Array H :=
    Array.mkArray half_leaves_count dflt
      ++ (leaves.map hs.hash).toArray
      ++ Array.mkArray (half_leaves_count - non_empty_leaves_count) dflt
  (downLoopFuel (buildStep hs.merge dflt) fuel (half_leaves_count - 1) nodes).map
    fun ns => ⟨ns, non_empty_leaves_count⟩

/-- `SparseMerkleTree.proof_of` with the generation pass fuelled. -/
def SparseMerkleTree.proof_ofFuel (dflt : H) (t : SparseMerkleTree H) (fuel : Nat)
    (indices : List Nat) : Option (Proof H) :=
  let leaves_count := t.leaves_count
  let half_leaves_count := leaves_count / 2
  if indices.any fun i => t.non_empty_leaves_count ≤ i then
    some (defaultProof dflt)
  else
    let known := indices.foldl (fun k i => k.setD (half_leaves_count + i) true)
      (Array.mkArray leaves_count false)
    (downLoopFuel (genStep t.nodes dflt) fuel (half_leaves_count - 1) (known, [])).map
      fun st =>
        { half_leaves_count := half_leaves_count
          root := t.root dflt
          leaves_with_index :=
            indices.map fun i =>
              (half_leaves_count + i, t.nodes.getD (half_leaves_count + i) dflt)
          proof := st.2 }

/-- Fuelled form of `verifyLoop` (structural recursion on the fuel, so it
also evaluates by kernel reduction): `none` when the fuel runs out. -/
def verifyLoopFuel [DecidableEq H] (merge : H → H → H) (dflt : H) (root : H) :
    Nat → List (Nat × H) → Nat → List H → Option Bool
  | 0, _, _, _ => none
  | fuel+1, q, n, r =>
    if n < q.length then
      if (q.getD n (0, dflt)).1 = 1 then some (decide (root = (q.getD n (0, dflt)).2))
      else if (q.getD n (0, dflt)).1 % 2 = 0 then
        match r with
        | [] => some false
        | x :: r' =>
          verifyLoopFuel merge dflt root fuel
            (q ++ [((q.getD n (0, dflt)).1 / 2, merge (q.getD n (0, dflt)).2 x)]) (n + 1) r'
      else if n + 1 ≠ q.length ∧ (q.getD (n + 1) (0, dflt)).1 = (q.getD n (0, dflt)).1 - 1 then
        verifyLoopFuel merge dflt root fuel
          (q ++ [((q.getD n (0, dflt)).1 / 2,
            merge (q.getD n (0, dflt)).2 (q.getD (n + 1) (0, dflt)).2)]) (n + 2) r
      else
        match r with
        | [] => some false
        | x :: r' =>
          verifyLoopFuel merge dflt root fuel
            (q ++ [((q.getD n (0, dflt)).1 / 2, merge x (q.getD n (0, dflt)).2)]) (n + 1) r'
    else some false

/-- `SparseMerkleTree.verify` with the queue loop fuelled. -/
def SparseMerkleTree.verifyFuel [DecidableEq H] (merge : H → H → H) (dflt : H)
    (fuel : Nat) (p : Proof H) : Option Bool :=
  if p.leaves_with_index.isEmpty then some false
  else verifyLoopFuel merge dflt p.root fuel p.leaves_with_index 0 p.proof

/-- `downLoop` over a fallible step: `none` aborts the loop. -/
def downLoopChecked {σ : Type} (step : Nat → σ → Option σ) : Nat → σ → Option σ
  | 0, s => some s
  | n+1, s => (step (n + 1) s).bind (downLoopChecked step n)

/-- `buildStep` with every array access bounds-checked: `none` models an
out-of-bounds `Vec` index (a Rust panic). -/
def buildStepChecked (merge : H → H → H) (i : Nat) (nodes : Array H) :
    Option (Array H) :=
  (nodes[2 * i]?).bind fun l =>
    (nodes[2 * i + 1]?).bind fun r =>
      if h : i < nodes.size then some (nodes.set ⟨i, h⟩ (merge l r)) else none

/-- `SparseMerkleTree.new` with every array access bounds-checked. -/
def SparseMerkleTree.newChecked (hs : Hasher L H) (dflt : H) (leaves : List L) :
    Option (SparseMerkleTree H) :=
  let non_empty_leaves_count := leaves.length
  let half_leaves_count := non_empty_to_half_leaves_count non_empty_leaves_count
  let nodes : Array H :=
    Array.mkArray half_leaves_count dflt
      ++ (leaves.map hs.hash).toArray
      ++ Array.mkArray (half_leaves_count - non_empty_leaves_count) dflt
  (downLoopChecked (buildStepChecked hs.merge) (half_leaves_count - 1) nodes).map
    fun ns => ⟨ns, non_empty_leaves_count⟩

/-- The leaf-marking writes `known[half + i] = true`, bounds-checked. -/
def markChecked (half_leaves_count : Nat) :
    List Nat → Array Bool → Option (Array Bool)
  | [], known => some known
  | i :: is, known =>
    if h : half_leaves_count + i < known.size then
      markChecked half_leaves_count is (known.set ⟨half_leaves_count + i, h⟩ true)
    else none

/-- `genStep` with every array access bounds-checked, in the order the
source performs them. -/
def genStepChecked (nodes : Array H) (i : Nat) (s : Array Bool × List H) :
    Option (Array Bool × List H) :=
  (s.1[2 * i]?).bind fun l =>
    (s.1[2 * i + 1]?).bind fun r =>
      (if l && !r then (nodes[2 * i + 1]?).map fun x => s.2 ++ [x] else some s.2).bind
        fun p1 =>
          (if !l && r then (nodes[2 * i]?).map fun x => p1 ++ [x] else some p1).bind
            fun p2 =>
              if h : i < s.1.size then some (s.1.set ⟨i, h⟩ (l || r), p2) else none

/-- `root()` with the `nodes[1]` read bounds-checked. -/
def SparseMerkleTree.rootChecked (dflt : H) (t : SparseMerkleTree H) : Option H :=
  if t.leaves_count = 0 then some dflt else t.nodes[1]?

/-- `SparseMerkleTree.proof_of` with every array access bounds-checked. -/
def SparseMerkleTree.proof_ofChecked (dflt : H) (t : SparseMerkleTree H)
    (indices : List Nat) : Option (Proof H) :=
  let leaves_count := t.leaves_count
  let half_leaves_count := leaves_count / 2
  if indices.any fun i => t.non_empty_leaves_count ≤ i then
    some (defaultProof dflt)
  else
    (markChecked half_leaves_count indices (Array.mkArray leaves_count false)).bind
      fun known =>
        (downLoopChecked (genStepChecked t.nodes) (half_leaves_count - 1)
            (known, [])).bind fun st =>
          (t.rootChecked dflt).bind fun rt =>
            (indices.mapM fun i =>
                (t.nodes[(half_leaves_count + i)]?).map fun d =>
                  (half_leaves_count + i, d)).bind fun lwi =>
              some { half_leaves_count := half_leaves_count
                     root := rt
                     leaves_with_index := lwi
                     proof := st.2 }

/-- `verifyLoop` with every queue and proof-list access bounds-checked and
an explicit fuel: `none` models an out-of-bounds read (or fuel exhaustion,
which the agreement theorem rules out for linear fuel); the
`[] => some false` cases are the source's explicit cursor-exhaustion
checks, which read nothing. -/
def verifyLoopChecked [DecidableEq H] (merge : H → H → H) (root : H) :
    Nat → List (Nat × H) → Nat → List H → Option Bool
  | 0, _, _, _ => none
  | fuel+1, q, n, r =>
    if n < q.length then
      (q[n]?).bind fun e =>
        if e.1 = 1 then some (decide (root = e.2))
        else if e.1 % 2 = 0 then
          match r with
          | [] => some false
          | x :: r' =>
            verifyLoopChecked merge root fuel (q ++ [(e.1 / 2, merge e.2 x)]) (n + 1) r'
        else if n + 1 ≠ q.length then
          (q[n + 1]?).bind fun e2 =>
            if e2.1 = e.1 - 1 then
              verifyLoopChecked merge root fuel (q ++ [(e.1 / 2, merge e.2 e2.2)]) (n + 2) r
            else
              match r with
              | [] => some false
              | x :: r' =>
                verifyLoopChecked merge root fuel (q ++ [(e.1 / 2, merge x e.2)]) (n + 1) r'
        else
          match r with
          | [] => some false
          | x :: r' =>
            verifyLoopChecked merge root fuel (q ++ [(e.1 / 2, merge x e.2)]) (n + 1) r'
    else some false

/-- `SparseMerkleTree.verify` with every access bounds-checked. -/
def SparseMerkleTree.verifyChecked [DecidableEq H] (merge : H → H → H)
    (p : Proof H) : Option Bool :=
  if p.leaves_with_index.isEmpty then some false
  else
    verifyLoopChecked merge p.root
      (2 * p.proof.length + p.leaves_with_index.length + 2)
      p.leaves_with_index 0 p.proof

/-- Reachability of node `i` from the marked leaf slots: a leaf slot
(`half ≤ i`) is reachable iff marked, an internal node iff either child
is.  This is the value the generation pass stores in `known[i]`. -/
def reach (half : Nat) (marks : Nat → Bool) (i : Nat) : Bool :=
  if i = 0 then false
  else if half ≤ i then marks i
  else reach half marks (2 * i) || reach half marks (2 * i + 1)
termination_by half - i
decreasing_by all_goals omega

/-- Number of `i ∈ [1, n]` with `K i = true`; bounds the number of sibling
digests the generation pass can push. -/
def countTrue (K : Nat → Bool) : Nat → Nat
  | 0 => 0
  | n+1 => countTrue K n + (if K (n + 1) then 1 else 0)

/-- The test hash scheme of the source (`hash(x) = x`, `merge(l, r) = l + r`). -/
def addHasher : Hasher Nat Nat := ⟨fun x => x, fun l r => l + r⟩

/-- The order-sensitive scheme `CheckMergeOrder` of the source tests
(`merge(l, r) = 2l + r`), built to detect swapped merge operands. -/
def ordHasher : Hasher Nat Nat := ⟨fun x => x, fun l r => 2 * l + r⟩

/-- The five-leaf example tree of the source tests. -/
def smt5 : SparseMerkleTree Nat := SparseMerkleTree.new addHasher 0 [1, 2, 3, 4, 5]

/-! ### Array access helpers -/

theorem getD_setD_self {α : Type} (a : Array α) (i : Nat) (v d : α) (h : i < a.size) :
    (a.setD i v).getD i d = v := by
  simp [Array.setD, Array.getD, h, Array.getElem_set_eq]

theorem getD_setD_of_ne {α : Type} (a : Array α) {i j : Nat} (v d : α) (hij : i ≠ j) :
    (a.setD i v).getD j d = a.getD j d := by
  by_cases hi : i < a.size
  · by_cases hj : j < a.size
    · simp [Array.setD, Array.getD, hi, hj, Array.getElem_set, hij]
    · simp [Array.setD, Array.getD, hi, hj]
  · simp [Array.setD, hi]

theorem getD_mkArray {α : Type} (n i : Nat) (x d : α) :
    (Array.mkArray n x).getD i d = if i < n then x else d := by
  by_cases h : i < n <;> simp [Array.getD, h]

theorem getElem_opt_eq_getD {α : Type} (a : Array α) (i : Nat) (d : α) (h : i < a.size) :
    a[i]? = some (a.getD i d) := by
  simp [Array.getD, h, Array.getElem?_eq_getElem]

theorem list_getElem_opt_eq_getD {α : Type} (l : List α) (n : Nat) (d : α)
    (h : n < l.length) : l[n]? = some (l.getD n d) := by
  simp [List.getD_eq_getElem?_getD, List.getElem?_eq_getElem h]

/-! ### `next_power_of_two` -/

theorem le_npotGo (n : Nat) : ∀ (fuel p : Nat), p ≤ npotGo n fuel p := by
  intro fuel
  induction fuel with
  | zero => intro p; simp [npotGo]
  | succ f ih =>
    intro p
    rw [npotGo]
    by_cases h : n ≤ p
    · simp [h]
    · simpa [h] using le_trans (by omega) (ih (2 * p))

theorem npotGo_ge (n : Nat) :
    ∀ (fuel p : Nat), n ≤ 2 ^ fuel * p → n ≤ npotGo n fuel p := by
  intro fuel
  induction fuel with
  | zero => intro p h; simpa [npotGo] using h
  | succ f ih =>
    intro p h
    rw [npotGo]
    by_cases hp : n ≤ p
    · simpa [hp] using hp
    · have : n ≤ 2 ^ f * (2 * p) := by
        have : (2:Nat) ^ (f + 1) * p = 2 ^ f * (2 * p) := by ring
        omega
      simpa [hp] using ih (2 * p) this

theorem le_next_power_of_two (n : Nat) : n ≤ next_power_of_two n := by
  refine npotGo_ge n n 1 ?_
  have := Nat.lt_two_pow n
  omega

theorem one_le_next_power_of_two (n : Nat) : 1 ≤ next_power_of_two n :=
  le_npotGo n n 1

theorem npotGo_pow (n : Nat) :
    ∀ (fuel k : Nat), ∃ j, npotGo n fuel (2 ^ k) = 2 ^ j := by
  intro fuel
  induction fuel with
  | zero => intro k; exact ⟨k, rfl⟩
  | succ f ih =>
    intro k
    rw [npotGo]
    by_cases h : n ≤ 2 ^ k
    · exact ⟨k, by simp [h]⟩
    · obtain ⟨j, hj⟩ := ih (k + 1)
      refine ⟨j, ?_⟩
      rw [if_neg h, show 2 * 2 ^ k = 2 ^ (k + 1) by ring, hj]

theorem next_power_of_two_pow (n : Nat) : ∃ k, next_power_of_two n = 2 ^ k := by
  simpa [next_power_of_two] using npotGo_pow n n 0

/-! ### Sizes are preserved by the loops -/

theorem size_buildStep (merge : H → H → H) (dflt : H) (i : Nat) (a : Array H) :
    (buildStep merge dflt i a).size = a.size := Array.size_setD ..

theorem size_downLoop_buildStep (merge : H → H → H) (dflt : H) :
    ∀ (n : Nat) (a : Array H), (downLoop (buildStep merge dflt) n a).size = a.size := by
  intro n
  induction n with
  | zero => intro a; rfl
  | succ m ih => intro a; rw [downLoop, ih, size_buildStep]

theorem size_genStep_fst (nodes : Array H) (dflt : H) (i : Nat) (s : Array Bool × List H) :
    (genStep nodes dflt i s).1.size = s.1.size := Array.size_setD ..

theorem size_downLoop_genStep_fst (nodes : Array H) (dflt : H) :
    ∀ (n : Nat) (s : Array Bool × List H),
      (downLoop (genStep nodes dflt) n s).1.size = s.1.size := by
  intro n
  induction n with
  | zero => intro s; rfl
  | succ m ih => intro s; rw [downLoop, ih, size_genStep_fst]

theorem size_foldl_setD (half : Nat) (indices : List Nat) :
    ∀ (a : Array Bool),
      (indices.foldl (fun k i => k.setD (half + i) true) a).size = a.size := by
  induction indices with
  | nil => intro a; rfl
  | cons i is ih => intro a; rw [List.foldl_cons, ih, Array.size_setD]

theorem new_nodes_size (hs : Hasher L H) (dflt : H) (leaves : List L) :
    (SparseMerkleTree.new hs dflt leaves).nodes.size
      = 2 * non_empty_to_half_leaves_count leaves.length := by
  have hle := le_next_power_of_two leaves.length
  have htoA : (leaves.map hs.hash).toArray.size = leaves.length := by
    simp
  simp only [SparseMerkleTree.new, size_downLoop_buildStep, Array.size_append,
    Array.size_mkArray, htoA]
  simp only [non_empty_to_half_leaves_count] at *
  omega

theorem new_non_empty (hs : Hasher L H) (dflt : H) (leaves : List L) :
    (SparseMerkleTree.new hs dflt leaves).non_empty_leaves_count = leaves.length := rfl

/-! ### Fuelled loops agree with the loops -/

theorem downLoopFuel_eq {σ : Type} (step : Nat → σ → σ) :
    ∀ (fuel n : Nat) (s : σ), n ≤ fuel →
      downLoopFuel step fuel n s = some (downLoop step n s) := by
  intro fuel
  induction fuel with
  | zero =>
    intro n s h
    cases n with
    | zero => rfl
    | succ m => omega
  | succ f ih =>
    intro n s h
    cases n with
    | zero => rfl
    | succ m => rw [downLoopFuel, downLoop]; exact ih m (step (m + 1) s) (by omega)

theorem verifyLoopFuel_eq [DecidableEq H] (merge : H → H → H) (dflt root : H) :
    ∀ (fuel : Nat) (q : List (Nat × H)) (n : Nat) (r : List H),
      2 * r.length + (q.length + 1 - n) < fuel →
      verifyLoopFuel merge dflt root fuel q n r
        = some (verifyLoop merge dflt root q n r) := by
  intro fuel
  induction fuel with
  | zero => intro q n r h; omega
  | succ f ih =>
    intro q n r hf
    simp only [verifyLoopFuel]
    rw [verifyLoop.eq_def]
    by_cases h : n < q.length
    · rw [if_pos h, dif_pos h]
      by_cases h1 : (q.getD n (0, dflt)).1 = 1
      · rw [if_pos h1, if_pos h1]
      · rw [if_neg h1, if_neg h1]
        by_cases h2 : (q.getD n (0, dflt)).1 % 2 = 0
        · rw [if_pos h2, if_pos h2]
          cases r with
          | nil => rfl
          | cons x r' =>
            exact ih _ _ _ (by simp only [List.length_append, List.length_cons,
              List.length_nil] at hf ⊢; omega)
        · rw [if_neg h2, if_neg h2]
          by_cases h3 : n + 1 ≠ q.length ∧ (q.getD (n + 1) (0, dflt)).1
              = (q.getD n (0, dflt)).1 - 1
          · rw [if_pos h3, if_pos h3]
            exact ih _ _ _ (by simp only [List.length_append, List.length_cons,
              List.length_nil] at hf ⊢; omega)
          · rw [if_neg h3, if_neg h3]
            cases r with
            | nil => rfl
            | cons x r' =>
              exact ih _ _ _ (by simp only [List.length_append, List.length_cons,
                List.length_nil] at hf ⊢; omega)
    · rw [if_neg h, dif_neg h]

theorem verifyFuel_eq [DecidableEq H] (merge : H → H → H) (dflt : H) (fuel : Nat)
    (p : Proof H) (hf : 2 * p.proof.length + p.leaves_with_index.length + 1 < fuel) :
    SparseMerkleTree.verifyFuel merge dflt fuel p
      = some (SparseMerkleTree.verify merge dflt p) := by
  rw [SparseMerkleTree.verifyFuel, SparseMerkleTree.verify]
  by_cases he : p.leaves_with_index.isEmpty
  · simp [he]
  · simp only [he, if_false]
    exact verifyLoopFuel_eq merge dflt p.root fuel p.leaves_with_index 0 p.proof
      (by omega)

/-- Extract a concrete `verify` value from a concrete `verifyFuel` run. -/
theorem verify_eq_of_verifyFuel [DecidableEq H] (merge : H → H → H) (dflt : H)
    (fuel : Nat) (p : Proof H) (b : Bool)
    (hf : 2 * p.proof.length + p.leaves_with_index.length + 1 < fuel)
    (hv : SparseMerkleTree.verifyFuel merge dflt fuel p = some b) :
    SparseMerkleTree.verify merge dflt p = b := by
  rw [verifyFuel_eq merge dflt fuel p hf] at hv
  exact Option.some.inj hv

/-! ### The claims -/

/-- C1 (code bug): the round-trip property fails as stated.  With the
order-sensitive scheme `merge(l, r) = 2l + r` (the source's own
`CheckMergeOrder` test scheme), the tree over leaves `[1, 2]` and the
in-range, distinct, non-empty index set `{0, 1}`, verification of the
generated, descending-sorted proof returns `false`: the verifier's
sibling-pair branch merges the two claimed digests as
`merge(right child, left child)`, the reverse of the build order. -/
theorem c1_round_trip_fails_on_sibling_pair :
    SparseMerkleTree.verify ordHasher.merge 0
      (((SparseMerkleTree.new ordHasher 0 [1, 2]).proof_of 0 [0, 1]).sort) = false :=
  verify_eq_of_verifyFuel _ _ 64 _ _ (by decide) (by decide)

/-- C2 (code bug): in the sibling-pair branch the popped (odd-index, right
child) digest is passed as the *left* merge operand, not the right one as
the spec states.  For the tree over `[3, 4]` under `merge(l, r) = 2l + r`
(left digest `3` at index 2, right digest `4` at index 3, true root
`merge(3, 4) = 10`), verification rejects the true root but accepts the
swapped value `merge(4, 3) = 11`. -/
theorem c2_pair_branch_merges_right_then_left :
    SparseMerkleTree.verify ordHasher.merge 0
        (((SparseMerkleTree.new ordHasher 0 [3, 4]).proof_of 0 [0, 1]).sort) = false ∧
      SparseMerkleTree.verify ordHasher.merge 0
        { ((SparseMerkleTree.new ordHasher 0 [3, 4]).proof_of 0 [0, 1]).sort with
            root := ordHasher.merge 4 3 } = true :=
  ⟨verify_eq_of_verifyFuel _ _ 64 _ _ (by decide) (by decide),
   verify_eq_of_verifyFuel _ _ 64 _ _ (by decide) (by decide)⟩

/-- C3 (counterexample): on the five-leaf example tree the proof list for
indices `{0, 3}` is not `[2, 7]` as the claim states. -/
theorem c3_proof_of_0_3_ne : (smt5.proof_of 0 [0, 3]).proof ≠ [2, 7] := by decide

/-- C3 (amended): with `merge(l, r) = l + r`, `hash(x) = x` and leaves
`[1, 2, 3, 4, 5]`, the node array is
`[0, 15, 10, 5, 3, 7, 5, 0, 1, 2, 3, 4, 5, 0, 0, 0]`, the proof for
`{0, 3}` is `[3, 2, 5]` (matching the source's own test), and the proof
for `{0, 1, 2, 3, 4}` is `[0, 0]`. -/
theorem c3_concrete_scenario :
    smt5.nodes = #[0, 15, 10, 5, 3, 7, 5, 0, 1, 2, 3, 4, 5, 0, 0, 0] ∧
      (smt5.proof_of 0 [0, 3]).proof = [3, 2, 5] ∧
      (smt5.proof_of 0 [0, 1, 2, 3, 4]).proof = [0, 0] := by decide

/-- C4 (counterexample): building from zero leaves does *not* give an
empty node array, and `next_power_of_two 0` is not `0`. -/
theorem c4_empty_tree_nodes_not_empty :
    (SparseMerkleTree.new addHasher 0 ([] : List Nat)).nodes.size ≠ 0 ∧
      next_power_of_two 0 ≠ 0 := by decide

/-- C4 (amended): `next_power_of_two 0 = 1` (Rust's `u32::next_power_of_two`),
so building from zero leaves gives the two-entry node array
`[default, default]`, and `root()` yields the default digest. -/
theorem c4_empty_tree_build (hs : Hasher L H) (dflt : H) :
    next_power_of_two 0 = 1 ∧
      (SparseMerkleTree.new hs dflt ([] : List L)).nodes = #[dflt, dflt] ∧
      (SparseMerkleTree.new hs dflt ([] : List L)).root dflt = dflt :=
  ⟨rfl, rfl, rfl⟩

/-- C5: a request containing any index `≥ non_empty_leaves_count` returns
the default proof (empty `leaves_with_index`, empty proof list, default
root), and verifying that returned proof yields `false`. -/
theorem c5_out_of_range_request [DecidableEq H] (merge : H → H → H) (dflt : H)
    (t : SparseMerkleTree H) (indices : List Nat)
    (hx : ∃ i ∈ indices, t.non_empty_leaves_count ≤ i) :
    t.proof_of dflt indices = defaultProof dflt ∧
      SparseMerkleTree.verify merge dflt (t.proof_of dflt indices) = false := by
  have hany : (indices.any fun i => t.non_empty_leaves_count ≤ i) = true := by
    rw [List.any_eq_true]
    obtain ⟨i, hmem, hle⟩ := hx
    exact ⟨i, hmem, by simpa using hle⟩
  have hp : t.proof_of dflt indices = defaultProof dflt := by
    simp [SparseMerkleTree.proof_of, hany]
  exact ⟨hp, by rw [hp]; rfl⟩

/-- C5 witness: the concrete two-leaf tree with requested index `5`. -/
theorem c5_out_of_range_request_witness :
    (SparseMerkleTree.new addHasher 0 [1, 2]).proof_of 0 [5] = defaultProof 0 ∧
      SparseMerkleTree.verify addHasher.merge 0
        ((SparseMerkleTree.new addHasher 0 [1, 2]).proof_of 0 [5]) = false :=
  c5_out_of_range_request addHasher.merge 0
    (SparseMerkleTree.new addHasher 0 [1, 2]) [5] (by decide)

/-! ### Checked accesses never go out of bounds -/

theorem buildStepChecked_eq (merge : H → H → H) (dflt : H) (i : Nat) (a : Array H)
    (h : 2 * i + 1 < a.size) :
    buildStepChecked merge i a = some (buildStep merge dflt i a) := by
  have h2 : 2 * i < a.size := by omega
  have hi : i < a.size := by omega
  rw [buildStepChecked, buildStep,
    getElem_opt_eq_getD a (2 * i) dflt h2,
    getElem_opt_eq_getD a (2 * i + 1) dflt h]
  simp only [Option.some_bind]
  simp [Array.setD, hi]

theorem downLoopChecked_buildStep_eq (merge : H → H → H) (dflt : H) :
    ∀ (n : Nat) (a : Array H), 2 * n + 1 < a.size →
      downLoopChecked (buildStepChecked merge) n a
        = some (downLoop (buildStep merge dflt) n a) := by
  intro n
  induction n with
  | zero => intro a h; rfl
  | succ m ih =>
    intro a h
    rw [downLoopChecked, downLoop, buildStepChecked_eq merge dflt (m + 1) a h]
    simp only [Option.some_bind]
    exact ih _ (by rw [size_buildStep]; omega)

theorem newChecked_eq (hs : Hasher L H) (dflt : H) (leaves : List L) :
    SparseMerkleTree.newChecked hs dflt leaves
      = some (SparseMerkleTree.new hs dflt leaves) := by
  have h1 := one_le_next_power_of_two leaves.length
  have hle := le_next_power_of_two leaves.length
  have htoA : (leaves.map hs.hash).toArray.size = leaves.length := by simp
  simp only [SparseMerkleTree.newChecked, SparseMerkleTree.new]
  rw [downLoopChecked_buildStep_eq hs.merge dflt _ _ (by
    simp only [Array.size_append, Array.size_mkArray, htoA,
      non_empty_to_half_leaves_count]
    omega)]
  rfl

theorem markChecked_eq (half : Nat) :
    ∀ (is : List Nat) (a : Array Bool), (∀ i ∈ is, half + i < a.size) →
      markChecked half is a
        = some (is.foldl (fun k i => k.setD (half + i) true) a) := by
  intro is
  induction is with
  | nil => intro a _; rfl
  | cons i is ih =>
    intro a h
    have hi : half + i < a.size := h i (by simp)
    rw [markChecked, List.foldl_cons, dif_pos hi]
    have hset : a.set ⟨half + i, hi⟩ true = a.setD (half + i) true := by
      simp [Array.setD, hi]
    rw [hset]
    exact ih _ fun j hj => by rw [Array.size_setD]; exact h j (by simp [hj])

set_option maxRecDepth 4000 in
theorem genStepChecked_eq (nodes : Array H) (dflt : H) (i : Nat)
    (s : Array Bool × List H) (hk : 2 * i + 1 < s.1.size)
    (hn : 2 * i + 1 < nodes.size) :
    genStepChecked nodes i s = some (genStep nodes dflt i s) := by
  have hk2 : 2 * i < s.1.size := by omega
  have hn2 : 2 * i < nodes.size := by omega
  have hik : i < s.1.size := by omega
  rw [genStepChecked, genStep,
    getElem_opt_eq_getD s.1 (2 * i) false hk2,
    getElem_opt_eq_getD s.1 (2 * i + 1) false hk,
    getElem_opt_eq_getD nodes (2 * i) dflt hn2,
    getElem_opt_eq_getD nodes (2 * i + 1) dflt hn]
  simp only [Option.some_bind]
  cases hl : s.1.getD (2 * i) false <;> cases hr : s.1.getD (2 * i + 1) false <;>
    simp [hl, hr, Array.setD, hik]

theorem downLoopChecked_genStep_eq (nodes : Array H) (dflt : H) :
    ∀ (n : Nat) (s : Array Bool × List H), s.1.size = nodes.size →
      2 * n + 1 < nodes.size →
      downLoopChecked (genStepChecked nodes) n s
        = some (downLoop (genStep nodes dflt) n s) := by
  intro n
  induction n with
  | zero => intro s _ _; rfl
  | succ m ih =>
    intro s hs h
    rw [downLoopChecked, downLoop, genStepChecked_eq nodes dflt (m + 1) s (by omega) h]
    simp only [Option.some_bind]
    exact ih _ (by rw [size_genStep_fst]; exact hs) (by omega)

theorem mapM_lwi_eq (nodes : Array H) (dflt : H) (half : Nat) :
    ∀ (is : List Nat), (∀ i ∈ is, half + i < nodes.size) →
      (is.mapM fun i => (nodes[(half + i)]?).map fun d => (half + i, d))
        = some (is.map fun i => (half + i, nodes.getD (half + i) dflt)) := by
  intro is
  induction is with
  | nil => intro _; rfl
  | cons i is ih =>
    intro h
    rw [List.mapM_cons, getElem_opt_eq_getD nodes (half + i) dflt (h i (by simp)),
      ih fun j hj => h j (by simp [hj])]
    rfl

theorem rootChecked_eq (dflt : H) (t : SparseMerkleTree H) (h : 1 < t.nodes.size) :
    t.rootChecked dflt = some (t.root dflt) := by
  have hne : ¬ t.leaves_count = 0 := by
    simp only [SparseMerkleTree.leaves_count]; omega
  rw [SparseMerkleTree.rootChecked, SparseMerkleTree.root, if_neg hne, if_neg hne,
    getElem_opt_eq_getD t.nodes 1 dflt h]

theorem proof_ofChecked_eq_of_inv (dflt : H) (t : SparseMerkleTree H)
    (indices : List Nat) (hsz : t.leaves_count = 2 * (t.leaves_count / 2))
    (hpos : 0 < t.leaves_count)
    (hcnt : t.non_empty_leaves_count ≤ t.leaves_count / 2) :
    t.proof_ofChecked dflt indices = some (t.proof_of dflt indices) := by
  by_cases hany : (indices.any fun i => t.non_empty_leaves_count ≤ i) = true
  · simp only [SparseMerkleTree.proof_ofChecked, SparseMerkleTree.proof_of,
      if_pos hany]
  · have hall : ∀ i ∈ indices, i < t.non_empty_leaves_count := by
      intro i hi
      by_contra hc
      exact hany (List.any_eq_true.mpr ⟨i, hi, by simp; omega⟩)
    have hbound : ∀ i ∈ indices, t.leaves_count / 2 + i < t.leaves_count := by
      intro i hi
      have := hall i hi
      omega
    simp only [SparseMerkleTree.proof_ofChecked, SparseMerkleTree.proof_of,
      if_neg hany]
    rw [markChecked_eq (t.leaves_count / 2) indices (Array.mkArray t.leaves_count false)
      (by intro i hi; rw [Array.size_mkArray]; exact hbound i hi)]
    simp only [Option.some_bind]
    rw [downLoopChecked_genStep_eq t.nodes dflt (t.leaves_count / 2 - 1) _
      (by rw [size_foldl_setD, Array.size_mkArray]; rfl)
      (by show 2 * (t.leaves_count / 2 - 1) + 1 < t.nodes.size
          have : t.leaves_count = t.nodes.size := rfl
          omega)]
    simp only [Option.some_bind]
    rw [rootChecked_eq dflt t (by
      have : t.leaves_count = t.nodes.size := rfl
      omega)]
    simp only [Option.some_bind]
    rw [mapM_lwi_eq t.nodes dflt (t.leaves_count / 2) indices (by
      intro i hi
      have : t.leaves_count = t.nodes.size := rfl
      have := hbound i hi
      omega)]
    simp only [Option.some_bind]

theorem verifyLoopChecked_eq [DecidableEq H] (merge : H → H → H) (dflt root : H) :
    ∀ (fuel : Nat) (q : List (Nat × H)) (n : Nat) (r : List H),
      2 * r.length + (q.length + 1 - n) < fuel →
      verifyLoopChecked merge root fuel q n r
        = some (verifyLoop merge dflt root q n r) := by
  intro fuel
  induction fuel with
  | zero => intro q n r h; omega
  | succ f ih =>
    intro q n r hf
    simp only [verifyLoopChecked]
    rw [verifyLoop.eq_def]
    by_cases h : n < q.length
    · rw [if_pos h, dif_pos h, list_getElem_opt_eq_getD q n (0, dflt) h]
      simp only [Option.some_bind]
      by_cases h1 : (q.getD n (0, dflt)).1 = 1
      · rw [if_pos h1, if_pos h1]
      · rw [if_neg h1, if_neg h1]
        by_cases h2 : (q.getD n (0, dflt)).1 % 2 = 0
        · rw [if_pos h2, if_pos h2]
          cases r with
          | nil => rfl
          | cons x r' =>
            exact ih _ _ _ (by simp only [List.length_append, List.length_cons,
              List.length_nil] at hf ⊢; omega)
        · rw [if_neg h2, if_neg h2]
          by_cases hne : n + 1 ≠ q.length
          · have hn1 : n + 1 < q.length := by omega
            rw [if_pos hne, list_getElem_opt_eq_getD q (n + 1) (0, dflt) hn1]
            simp only [Option.some_bind]
            by_cases h3 : (q.getD (n + 1) (0, dflt)).1 = (q.getD n (0, dflt)).1 - 1
            · rw [if_pos h3, if_pos ⟨hne, h3⟩]
              exact ih _ _ _ (by simp only [List.length_append, List.length_cons,
                List.length_nil] at hf ⊢; omega)
            · rw [if_neg h3, if_neg fun hc => h3 hc.2]
              cases r with
              | nil => rfl
              | cons x r' =>
                exact ih _ _ _ (by simp only [List.length_append, List.length_cons,
                  List.length_nil] at hf ⊢; omega)
          · rw [if_neg hne, if_neg fun hc => hne hc.1]
            cases r with
            | nil => rfl
            | cons x r' =>
              exact ih _ _ _ (by simp only [List.length_append, List.length_cons,
                List.length_nil] at hf ⊢; omega)
    · rw [if_neg h, dif_neg h]

theorem verifyChecked_eq [DecidableEq H] (merge : H → H → H) (dflt : H)
    (p : Proof H) :
    SparseMerkleTree.verifyChecked merge p
      = some (SparseMerkleTree.verify merge dflt p) := by
  rw [SparseMerkleTree.verifyChecked, SparseMerkleTree.verify]
  by_cases he : p.leaves_with_index.isEmpty
  · simp [he]
  · simp only [he, if_false]
    exact verifyLoopChecked_eq merge dflt p.root
      (2 * p.proof.length + p.leaves_with_index.length + 2) p.leaves_with_index
      0 p.proof (by omega)

/-- C6: no operation ever indexes past the live array lengths.  Every array
read/write of `new`, of `proof_of` on a built tree, and of `verify` on an
arbitrary proof is in bounds: the `Checked` variants, in which any
out-of-bounds access aborts with `none`, always return `some` of the
corresponding total function's result (`verify` returns `false` on
mismatched, truncated, or reordered proof lists rather than faulting; its
result does not even depend on the `dflt` placeholder). -/
theorem c6_no_out_of_bounds_access {L H : Type} [DecidableEq H] :
    (∀ (hs : Hasher L H) (dflt : H) (leaves : List L),
        SparseMerkleTree.newChecked hs dflt leaves
          = some (SparseMerkleTree.new hs dflt leaves)) ∧
      (∀ (hs : Hasher L H) (dflt : H) (leaves : List L) (indices : List Nat),
          (SparseMerkleTree.new hs dflt leaves).proof_ofChecked dflt indices
            = some ((SparseMerkleTree.new hs dflt leaves).proof_of dflt indices)) ∧
      (∀ (merge : H → H → H) (dflt : H) (p : Proof H),
          SparseMerkleTree.verifyChecked merge p
            = some (SparseMerkleTree.verify merge dflt p)) := by
  refine ⟨newChecked_eq, ?_, verifyChecked_eq⟩
  intro hs dflt leaves indices
  have hsz : (SparseMerkleTree.new hs dflt leaves).leaves_count
      = 2 * non_empty_to_half_leaves_count leaves.length := new_nodes_size hs dflt leaves
  have h1 := one_le_next_power_of_two leaves.length
  have hle := le_next_power_of_two leaves.length
  simp only [non_empty_to_half_leaves_count] at hsz
  refine proof_ofChecked_eq_of_inv dflt _ indices (by omega) (by omega) ?_
  rw [new_non_empty]
  omega

/-! ### Minimality of the generated proof -/

theorem foldl_setD_getD (half : Nat) :
    ∀ (is : List Nat) (a : Array Bool) (m : Nat),
      (∀ i ∈ is, half + i < a.size) →
      (is.foldl (fun k i => k.setD (half + i) true) a).getD m false
        = (a.getD m false || is.any fun i => half + i == m) := by
  intro is
  induction is with
  | nil => intro a m _; simp
  | cons i is ih =>
    intro a m h
    rw [List.foldl_cons,
      ih _ m fun j hj => by rw [Array.size_setD]; exact h j (by simp [hj])]
    by_cases hm : half + i = m
    · subst hm
      rw [getD_setD_self _ _ _ _ (h i (by simp))]
      simp
    · rw [getD_setD_of_ne _ _ _ hm]
      have : (half + i == m) = false := by simp [hm]
      simp [List.any_cons, this]

theorem reach_internal (half : Nat) (marks : Nat → Bool) (i : Nat)
    (h1 : 1 ≤ i) (h2 : i < half) :
    reach half marks i = (reach half marks (2 * i) || reach half marks (2 * i + 1)) := by
  rw [reach.eq_def]
  rw [if_neg (by omega), if_neg (by omega)]

theorem reach_leaf (half : Nat) (marks : Nat → Bool) (m : Nat)
    (h0 : m ≠ 0) (hm : half ≤ m) : reach half marks m = marks m := by
  rw [reach.eq_def]
  rw [if_neg h0, if_pos hm]

theorem genLoop_proof_len_le (nodes : Array H) (dflt : H) (half : Nat)
    (K : Nat → Bool)
    (hK : ∀ i, 1 ≤ i → i < half → K i = (K (2 * i) || K (2 * i + 1))) :
    ∀ (n : Nat) (A : Array Bool) (p : List H),
      n < half → A.size = 2 * half →
      (∀ m, A.getD m false = if m ≤ n then false else K m) →
      (downLoop (genStep nodes dflt) n (A, p)).2.length
        ≤ p.length + countTrue K n := by
  intro n
  induction n with
  | zero => intro A p _ _ _; simp [downLoop, countTrue]
  | succ w ih =>
    intro A p hlt hsz hinv
    rw [downLoop]
    have hl : A.getD (2 * (w + 1)) false = K (2 * (w + 1)) := by
      rw [hinv, if_neg (by omega)]
    have hr : A.getD (2 * (w + 1) + 1) false = K (2 * (w + 1) + 1) := by
      rw [hinv, if_neg (by omega)]
    have hkw := hK (w + 1) (by omega) (by omega)
    have hfst : (genStep nodes dflt (w + 1) (A, p)).1 = A.setD (w + 1) (K (w + 1)) := by
      show A.setD (w + 1)
          (A.getD (2 * (w + 1)) false || A.getD (2 * (w + 1) + 1) false) = _
      rw [hl, hr, ← hkw]
    have hsnd : (genStep nodes dflt (w + 1) (A, p)).2.length
        ≤ p.length + (if K (w + 1) then 1 else 0) := by
      simp only [genStep]
      rw [hl, hr, hkw]
      cases K (2 * (w + 1)) <;> cases K (2 * (w + 1) + 1) <;> simp
    have hinv2 : ∀ m, (genStep nodes dflt (w + 1) (A, p)).1.getD m false
        = if m ≤ w then false else K m := by
      intro m
      rw [hfst]
      by_cases hm : m = w + 1
      · subst hm
        rw [getD_setD_self _ _ _ _ (by omega), if_neg (by omega)]
      · rw [getD_setD_of_ne _ _ _ fun hc => hm hc.symm, hinv m]
        by_cases hm2 : m ≤ w
        · rw [if_pos (by omega), if_pos hm2]
        · rw [if_neg (by omega), if_neg hm2]
    have hrec := ih (genStep nodes dflt (w + 1) (A, p)).1
      (genStep nodes dflt (w + 1) (A, p)).2 (by omega)
      (by rw [size_genStep_fst]; exact hsz) hinv2
    have hct : countTrue K (w + 1) = countTrue K w + (if K (w + 1) then 1 else 0) := rfl
    calc (downLoop (genStep nodes dflt) w (genStep nodes dflt (w + 1) (A, p))).2.length
        ≤ (genStep nodes dflt (w + 1) (A, p)).2.length + countTrue K w := hrec
      _ ≤ p.length + (if K (w + 1) then 1 else 0) + countTrue K w := by omega
      _ = p.length + countTrue K (w + 1) := by rw [hct]; omega

theorem countTrue_eq_card (K : Nat → Bool) :
    ∀ n, countTrue K n
      = ((Finset.range (n + 1)).filter fun i => 1 ≤ i ∧ K i = true).card := by
  intro n
  induction n with
  | zero =>
    rw [countTrue]
    symm
    simp [Finset.range_one, Finset.filter_singleton]
  | succ w ih =>
    rw [countTrue, ih]
    conv_rhs => rw [Finset.range_succ, Finset.filter_insert]
    by_cases hk : K (w + 1) = true
    · rw [if_pos hk, if_pos ⟨by omega, hk⟩,
        Finset.card_insert_of_not_mem (by simp)]
    · rw [if_neg hk, if_neg fun hc => hk hc.2]
      omega

theorem reach_ancestor (half : Nat) (marks : Nat → Bool) :
    ∀ (d i : Nat), half - i ≤ d → 1 ≤ i → i < half → reach half marks i = true →
      ∃ g, marks g = true ∧ ∃ t, 1 ≤ t ∧ g / 2 ^ t = i := by
  intro d
  induction d with
  | zero => intro i h1 _ h3 _; omega
  | succ w ih =>
    intro i hd h1 hlt hr
    rw [reach_internal half marks i h1 hlt, Bool.or_eq_true] at hr
    rcases hr with hr | hr
    · by_cases hge : half ≤ 2 * i
      · rw [reach_leaf half marks (2 * i) (by omega) hge] at hr
        exact ⟨2 * i, hr, 1, le_refl 1, by rw [pow_one]; omega⟩
      · obtain ⟨g, hg, t, ht1, hgt⟩ := ih (2 * i) (by omega) (by omega) (by omega) hr
        refine ⟨g, hg, t + 1, by omega, ?_⟩
        rw [pow_succ, ← Nat.div_div_eq_div_mul, hgt]
        omega
    · by_cases hge : half ≤ 2 * i + 1
      · rw [reach_leaf half marks (2 * i + 1) (by omega) hge] at hr
        exact ⟨2 * i + 1, hr, 1, le_refl 1, by rw [pow_one]; omega⟩
      · obtain ⟨g, hg, t, ht1, hgt⟩ := ih (2 * i + 1) (by omega) (by omega) (by omega) hr
        refine ⟨g, hg, t + 1, by omega, ?_⟩
        rw [pow_succ, ← Nat.div_div_eq_div_mul, hgt]
        omega

theorem card_reach_le (half h : Nat) (hhalf : half = 2 ^ h) (indices : List Nat)
    (marks : Nat → Bool)
    (hmarks : ∀ m, marks m = true → ∃ i ∈ indices, half + i = m)
    (hval : ∀ i ∈ indices, i < half) :
    ((Finset.range half).filter fun i => 1 ≤ i ∧ reach half marks i = true).card
      ≤ indices.length * h := by
  classical
  have hsub : ((Finset.range half).filter fun i => 1 ≤ i ∧ reach half marks i = true)
      ⊆ (indices.toFinset ×ˢ Finset.Icc 1 h).image
          fun pr => (half + pr.1) / 2 ^ pr.2 := by
    intro i hi
    simp only [Finset.mem_filter, Finset.mem_range] at hi
    obtain ⟨hilt, h1, hrch⟩ := hi
    obtain ⟨g, hg, t, ht1, hgt⟩ :=
      reach_ancestor half marks (half - i) i (le_refl _) h1 hilt hrch
    obtain ⟨j, hj, hjg⟩ := hmarks g hg
    have hjlt := hval j hj
    have hglt : g < 2 * half := by omega
    have ht2 : 2 ^ t ≤ g := by
      rcases Nat.lt_or_ge g (2 ^ t) with hlt2 | hge2
      · rw [Nat.div_eq_of_lt hlt2] at hgt; omega
      · exact hge2
    have hth : t ≤ h := by
      by_contra hc
      have hp1 : (2:Nat) ^ (h + 1) ≤ 2 ^ t := Nat.pow_le_pow_right (by omega) (by omega)
      have hp2 : 2 * half = 2 ^ (h + 1) := by rw [hhalf, pow_succ]; ring
      omega
    simp only [Finset.mem_image, Finset.mem_product, List.mem_toFinset, Finset.mem_Icc]
    exact ⟨(j, t), ⟨hj, ht1, hth⟩, by rw [hjg]; exact hgt⟩
  calc ((Finset.range half).filter fun i => 1 ≤ i ∧ reach half marks i = true).card
      ≤ ((indices.toFinset ×ˢ Finset.Icc 1 h).image
          fun pr => (half + pr.1) / 2 ^ pr.2).card := Finset.card_le_card hsub
    _ ≤ (indices.toFinset ×ˢ Finset.Icc 1 h).card := Finset.card_image_le
    _ = indices.toFinset.card * (Finset.Icc 1 h).card := Finset.card_product ..
    _ ≤ indices.length * h := by
        have hc1 := List.toFinset_card_le indices
        rw [Nat.card_Icc]
        exact Nat.mul_le_mul hc1 (by omega)

/-- C7: for a tree built from any leaf list and any in-range request of
distinct indices, the proof list emitted by `proof_of` has length at most
`log2(half) * k`: the pass pushes at most one sibling per internal node
reachable from a requested leaf, and each of the `k` requested leaves has
exactly `log2(half)` proper ancestors. -/
theorem c7_minimality (hs : Hasher L H) (dflt : H) (leaves : List L)
    (indices : List Nat) (hnd : indices.Nodup)
    (hval : ∀ i ∈ indices, i < leaves.length) :
    ((SparseMerkleTree.new hs dflt leaves).proof_of dflt indices).proof.length
      ≤ Nat.log 2 ((SparseMerkleTree.new hs dflt leaves).leaves_count / 2)
          * indices.length := by
  classical
  obtain ⟨h, hpow⟩ := next_power_of_two_pow leaves.length
  have hlen := le_next_power_of_two leaves.length
  have hone := one_le_next_power_of_two leaves.length
  set t := SparseMerkleTree.new hs dflt leaves with ht
  have hsz : t.leaves_count = 2 * 2 ^ h := by
    rw [ht]
    show (SparseMerkleTree.new hs dflt leaves).nodes.size = 2 * 2 ^ h
    rw [new_nodes_size]
    simp [non_empty_to_half_leaves_count, hpow]
  have hhalf : t.leaves_count / 2 = 2 ^ h := by omega
  have hlog : Nat.log 2 (t.leaves_count / 2) = h := by
    rw [hhalf]; exact Nat.log_pow (by norm_num) h
  have hcnt : t.non_empty_leaves_count = leaves.length := rfl
  have hval2 : ∀ i ∈ indices, i < t.leaves_count / 2 := by
    intro i hi
    have := hval i hi
    omega
  have hany : ¬ ((indices.any fun i => t.non_empty_leaves_count ≤ i) = true) := by
    rw [List.any_eq_true]
    rintro ⟨i, hi, hle⟩
    have := hval i hi
    rw [hcnt] at hle
    simp at hle
    omega
  rw [SparseMerkleTree.proof_of]
  simp only [if_neg hany]
  rw [hlog]
  set half := t.leaves_count / 2 with hhalfdef
  set marksB : Nat → Bool := fun m => indices.any fun i => half + i == m with hmB
  have hpos : 1 ≤ half := by omega
  have hKrec : ∀ i, 1 ≤ i → i < half →
      reach half marksB i = (reach half marksB (2 * i) || reach half marksB (2 * i + 1)) :=
    fun i a b => reach_internal half marksB i a b
  have hinv : ∀ m,
      (indices.foldl (fun k i => k.setD (half + i) true)
        (Array.mkArray t.leaves_count false)).getD m false
        = if m ≤ half - 1 then false else reach half marksB m := by
    intro m
    rw [foldl_setD_getD half indices _ m (by
      intro i hi
      rw [Array.size_mkArray]
      have := hval2 i hi
      omega)]
    rw [getD_mkArray]
    by_cases hm : m ≤ half - 1
    · rw [if_pos hm]
      have hmf : marksB m = false := by
        rw [hmB]
        simp only [List.any_eq_false, beq_iff_eq]
        intro i hi
        have := hval2 i hi
        omega
      have hmf2 : (indices.any fun i => half + i == m) = false := hmf
      rw [hmf2]
      simp
    · rw [if_neg hm, reach_leaf half marksB m (by omega) (by omega)]
      simp
  have hbound := genLoop_proof_len_le t.nodes dflt half (reach half marksB) hKrec
    (half - 1)
    (indices.foldl (fun k i => k.setD (half + i) true)
      (Array.mkArray t.leaves_count false))
    [] (by omega)
    (by rw [size_foldl_setD, Array.size_mkArray]; omega) hinv
  have hmarks : ∀ m, marksB m = true → ∃ i ∈ indices, half + i = m := by
    intro m hm
    rw [hmB, List.any_eq_true] at hm
    obtain ⟨i, hi, hbe⟩ := hm
    exact ⟨i, hi, by simpa using hbe⟩
  have hcard := card_reach_le half h hhalf indices marksB hmarks hval2
  have hct := countTrue_eq_card (reach half marksB) (half - 1)
  have hrange : half - 1 + 1 = half := by omega
  rw [hrange] at hct
  calc (downLoop (genStep t.nodes dflt) (half - 1)
        (indices.foldl (fun k i => k.setD (half + i) true)
          (Array.mkArray t.leaves_count false), [])).2.length
      ≤ [].length + countTrue (reach half marksB) (half - 1) := hbound
    _ = countTrue (reach half marksB) (half - 1) := by simp
    _ = ((Finset.range half).filter
          fun i => 1 ≤ i ∧ reach half marksB i = true).card := hct
    _ ≤ indices.length * h := hcard
    _ = h * indices.length := Nat.mul_comm ..

/-- C7 witness: the five-leaf tree and the request `{0, 3}`: the proof has
3 entries, and `log2(8) * 2 = 6`. -/
theorem c7_minimality_witness :
    ((SparseMerkleTree.new addHasher 0 [1, 2, 3, 4, 5]).proof_of 0 [0, 3]).proof.length
      ≤ Nat.log 2 ((SparseMerkleTree.new addHasher 0 [1, 2, 3, 4, 5]).leaves_count / 2)
          * [0, 3].length :=
  c7_minimality addHasher 0 [1, 2, 3, 4, 5] [0, 3] (by decide) (by decide)

/-- C8: all three operations terminate, with fuel linear in the input:
the build and generation passes run exactly `half - 1 (≤ fuel)` iterations,
and the verifier's queue loop needs at most
`2 * proof length + claimed leaves + 2` steps, since every iteration
consumes a proof entry or pairs off a queue entry ahead of the cursor. -/
theorem c8_linear_fuel_suffices {L H : Type} [DecidableEq H] :
    (∀ (hs : Hasher L H) (dflt : H) (leaves : List L),
        SparseMerkleTree.newFuel hs dflt
            (non_empty_to_half_leaves_count leaves.length) leaves
          = some (SparseMerkleTree.new hs dflt leaves)) ∧
      (∀ (dflt : H) (t : SparseMerkleTree H) (indices : List Nat),
          SparseMerkleTree.proof_ofFuel dflt t t.leaves_count indices
            = some (t.proof_of dflt indices)) ∧
      (∀ (merge : H → H → H) (dflt : H) (p : Proof H),
          SparseMerkleTree.verifyFuel merge dflt
              (2 * p.proof.length + p.leaves_with_index.length + 2) p
            = some (SparseMerkleTree.verify merge dflt p)) := by
  refine ⟨?_, ?_, ?_⟩
  · intro hs dflt leaves
    simp only [SparseMerkleTree.newFuel, SparseMerkleTree.new]
    rw [downLoopFuel_eq _ _ _ _ (by omega)]
    rfl
  · intro dflt t indices
    simp only [SparseMerkleTree.proof_ofFuel, SparseMerkleTree.proof_of]
    by_cases hany : (indices.any fun i => t.non_empty_leaves_count ≤ i) = true
    · simp [hany]
    · simp only [hany, if_false]
      rw [downLoopFuel_eq _ _ _ _ (by omega)]
      rfl
  · intro merge dflt p
    exact verifyFuel_eq _ _ _ _ (by omega)

/-- C9: a proof with an empty `leaves_with_index` is rejected immediately,
whatever the root and proof list are. -/
theorem c9_empty_claim_set [DecidableEq H] (merge : H → H → H) (dflt : H)
    (half : Nat) (root : H) (prf : List H) :
    SparseMerkleTree.verify merge dflt ⟨half, root, [], prf⟩ = false := rfl

/-- C10: `verify` never reads the proof's `half_leaves_count` field: two
proofs differing only there verify identically. -/
theorem c10_half_leaves_count_ignored [DecidableEq H] (merge : H → H → H)
    (dflt : H) (h1 h2 : Nat) (root : H) (lwi : List (Nat × H)) (prf : List H) :
    SparseMerkleTree.verify merge dflt ⟨h1, root, lwi, prf⟩
      = SparseMerkleTree.verify merge dflt ⟨h2, root, lwi, prf⟩ := rfl

end Tsmt
